import Mathlib

/-!
Shallow embedding of the `fallhack` program (src/main.rs): a word-guessing
helper that reads guess lines from stdin, validates them, and prints the
candidate words consistent with every clue.

Modelling conventions:
* The regex character classes `[[:alpha:]]`, `[[:digit:]]`, `[[:space:]]` of
  the Rust `regex` crate are ASCII-only; `Char.isAlpha` and `Char.isDigit`
  in Lean are exactly those ASCII classes, and `isPosixSpace` below is the
  POSIX space class.
* Since every parsed word consists of ASCII alphabetic characters, a word is
  modelled as its list of characters; its `List.length` coincides with
  Rust's byte length `word.len()`, and byte indexing `word.as_bytes()[i]`
  coincides with positional character access.
* `usize` values are modelled as `Nat`; overflow matters only in
  `str::parse::<usize>`, which fails (and the surrounding `expect` panics)
  when the numeric value exceeds `usize::MAX`, modelled as `usizeMax`
  (a 64-bit target is assumed).
* Fallible steps return `PResult`, whose `panicked` constructor models a
  Rust panic (process abort, exit code 101); `Error` mirrors the program's
  error enum. Reading stdin is modelled by passing the whole input as a
  value, so the `Error::IO` variant (read failure) has no counterpart here.
-/

namespace Fallhack

/-- POSIX `[[:space:]]` class used by the Rust regex crate:
space, tab, newline, vertical tab, form feed, carriage return. -/
def isPosixSpace (c : Char) : Bool :=
  c.toNat = 32 || (9 ≤ c.toNat && c.toNat ≤ 13)

/-- `struct Guess { word: String, count: Option<usize> }` (main.rs 14-18). -/
structure Guess where
  word : List Char
  count : Option Nat
deriving DecidableEq, Repr

/-- Core loop of `Guess::num_of_common_letters` (main.rs 32-44): walk the
positions of the first word, comparing with the character of the second word
at the same position. `none` models the panic when the byte index into
`other.word` is out of bounds (first word longer than the second). -/
def commonCount : List Char → List Char → Option Nat
  | [], _ => some 0
  | _ :: _, [] => none
  | x :: xs, y :: ys =>
    match commonCount xs ys with
    | none => none
    | some n => some (if x = y then n + 1 else n)

/-- `Guess::num_of_common_letters` (main.rs 32-44). -/
def Guess.numOfCommonLetters (self other : Guess) : Option Nat :=
  commonCount self.word other.word

/-- Numeric value of a digit string, as computed by `str::parse` on an
all-digit input (before the `usize` range check). -/
def digitsToNat (s : List Char) : Nat :=
  s.foldl (fun n c => n * 10 + (c.toNat - 48)) 0

/-- `usize::MAX` on a 64-bit target; `str::parse::<usize>` fails with
`PosOverflow` for digit strings whose value exceeds it. -/
def usizeMax : Nat := 2 ^ 64 - 1

/-- The program's error enum (main.rs 132-138), without the `IO` variant:
stdin is modelled as a value, so the read cannot fail here. -/
inductive Error where
  | parseGuess (line : List Char) (detail : String)
  | noGuesses
  | unequalLengths
deriving DecidableEq, Repr

/-- Result of a fallible step; `panicked` models a Rust panic
(process abort with exit code 101). -/
inductive PResult (α : Type) where
  | ok (a : α)
  | err (e : Error)
  | panicked
deriving DecidableEq, Repr

/-- Capture step of `GUESS_REGEX.captures` for the pattern
`(?P<word>[[:alpha:]]+)[[:space:]]*(?P<count>[[:digit:]]*)` (main.rs 52-54),
by its leftmost-greedy semantics: the match starts at the first alphabetic
character; `word` is the maximal alphabetic run from there; a maximal
whitespace run is skipped; `count` is the maximal digit run that follows.
`none` when the line has no alphabetic character (no match). -/
def extract : List Char → Option (List Char × List Char)
  | [] => none
  | c :: rest =>
    if c.isAlpha then
      let w := (c :: rest).takeWhile Char.isAlpha
      let t := ((c :: rest).dropWhile Char.isAlpha).dropWhile isPosixSpace
      some (w, t.takeWhile Char.isDigit)
    else extract rest

/-- `impl TryFrom<&str> for Guess` (main.rs 47-96). A digit run whose value
exceeds `usize::MAX` makes `count_str.parse()` fail, so the
`expect("the regex should not allow this to fail")` panics. -/
def tryFrom (line : List Char) : PResult Guess :=
  match extract line with
  | none => PResult.err (Error.parseGuess line "wrong guess format")
  | some (word, countStr) =>
    if countStr.length > 0 then
      if digitsToNat countStr ≤ usizeMax then
        if digitsToNat countStr > word.length then
          PResult.err (Error.parseGuess line "count is longer than the word")
        else
          PResult.ok ⟨word, some (digitsToNat countStr)⟩
      else
        PResult.panicked
    else
      PResult.ok ⟨word, none⟩

/-- Split at newline characters; auxiliary for `rustLines`. Always returns a
nonempty list (the segments between newlines, in order). -/
def splitNl : List Char → List (List Char)
  | [] => [[]]
  | c :: rest =>
    if c = '\n' then [] :: splitNl rest
    else
      match splitNl rest with
      | [] => [[c]]
      | l :: ls => (c :: l) :: ls

/-- Remove one trailing carriage return, for segments that ended in `\n`. -/
def stripCr (l : List Char) : List Char :=
  if l.getLast? = some '\r' then l.dropLast else l

/-- Rust `str::lines` (main.rs 183): split at `\n`, strip a `\r` preceding
each `\n`, drop the trailing empty segment produced by a final `\n`
(an input without a final newline keeps its last line as-is). -/
def rustLines (s : List Char) : List (List Char) :=
  let parts := splitNl s
  let front := (parts.dropLast).map stripCr
  match parts.getLast? with
  | some [] => front
  | some l => front ++ [l]
  | none => front

/-- The parse loop of `parse_guesses_from_stdin` (main.rs 183-186): parse
each line in order, stopping at the first error (the `?` operator). -/
def parseAll : List (List Char) → PResult (List Guess)
  | [] => PResult.ok []
  | l :: ls =>
    match tryFrom l with
    | PResult.ok g =>
      match parseAll ls with
      | PResult.ok gs => PResult.ok (g :: gs)
      | PResult.err e => PResult.err e
      | PResult.panicked => PResult.panicked
    | PResult.err e => PResult.err e
    | PResult.panicked => PResult.panicked

/-- `parse_guesses_from_stdin` (main.rs 177-205), with stdin's content passed
as `input`: parse every line, fail with `NoGuessesError` on an empty
collection, fail with `UnequalLengthsError` when some word's length differs
from the first word's length, otherwise return all guesses in order.
This is the validation half (main.rs 188-204). -/
def validateGuesses (gs : List Guess) : PResult (List Guess) :=
  match gs with
  | [] => PResult.err Error.noGuesses
  | g0 :: _ =>
    if gs.all (fun g => g.word.length == g0.word.length) then PResult.ok gs
    else PResult.err Error.unequalLengths

/-- `parse_guesses_from_stdin` continued: full loader. -/
def parseGuessesFromInput (input : List Char) : PResult (List Guess) :=
  match parseAll (rustLines input) with
  | PResult.ok gs => validateGuesses gs
  | PResult.err e => PResult.err e
  | PResult.panicked => PResult.panicked

/-- One clue test from the filter closure (main.rs 217-220):
`guess_with_count.num_of_common_letters(guess_without_count) ==
guess_with_count.count.unwrap()`. `none` models a panic, either from the
out-of-bounds byte index or from `unwrap` on an absent count. -/
def clueTest (clue cand : Guess) : Option Bool :=
  match Guess.numOfCommonLetters clue cand with
  | none => none
  | some n =>
    match clue.count with
    | none => none
    | some c => some (n == c)

/-- `Iterator::all` over the clues (main.rs 217-221), short-circuiting at the
first failed test, so a later panic is not reached. -/
def allClues : List Guess → Guess → Option Bool
  | [], _ => some true
  | clue :: rest, cand =>
    match clueTest clue cand with
    | none => none
    | some false => some false
    | some true => allClues rest cand

/-- The candidate filter (main.rs 216-221): keep the candidates that pass
every clue's test. -/
def filterConsistent (clues : List Guess) : List Guess → Option (List Guess)
  | [] => some []
  | cand :: rest =>
    match allClues clues cand with
    | none => none
    | some true =>
      match filterConsistent clues rest with
      | none => none
      | some out => some (cand :: out)
    | some false => filterConsistent clues rest

/-- The partition-and-filter body of `run` (main.rs 210-221): clues are the
guesses with a count, candidates those without, both in input order. -/
def filterCandidates (gs : List Guess) : Option (List Guess) :=
  filterConsistent (gs.filter (fun g => g.count.isSome))
    (gs.filter (fun g => g.count.isNone))

/-- `run` (main.rs 207-228): parse and validate, filter, and return the words
printed to stdout (one per surviving candidate, in order). -/
def run (input : List Char) : PResult (List (List Char)) :=
  match parseGuessesFromInput input with
  | PResult.ok gs =>
    match filterCandidates gs with
    | some out => PResult.ok (out.map (fun g => g.word))
    | none => PResult.panicked
  | PResult.err e => PResult.err e
  | PResult.panicked => PResult.panicked

/-- What appears on the error stream during one execution. -/
inductive StderrOut where
  | quiet
  | errorLine (e : Error)
  | panicMsg
deriving DecidableEq, Repr

/-- `main` (main.rs 230-238): stdout lines, stderr content, and exit status.
On `Err(e)` the program prints one `error: {e}` line to stderr and exits
with status 1; on success it exits with status 0; a panic aborts the
process with a panic message on stderr and exit code 101. -/
def mainModel (input : List Char) : List (List Char) × StderrOut × Nat :=
  match run input with
  | PResult.ok out => (out, StderrOut.quiet, 0)
  | PResult.err e => ([], StderrOut.errorLine e, 1)
  | PResult.panicked => ([], StderrOut.panicMsg, 101)

/-- Specification-side positional-match count between two words: the number
of positions (within the common length) holding the same character. -/
def posMatchCount (a b : List Char) : Nat :=
  (a.zip b).countP (fun p => p.1 = p.2)

/-- Specification-side consistency: for every clue among `gs`, the
positional-match count between the clue's word and `c`'s word equals the
clue's declared count (vacuous for guesses without a count). -/
def SpecConsistent (gs : List Guess) (c : Guess) : Prop :=
  ∀ g ∈ gs, ∀ m, g.count = some m → posMatchCount g.word c.word = m

instance instDecidableSpecConsistent (gs : List Guess) (c : Guess) :
    Decidable (SpecConsistent gs c) :=
  decidable_of_iff
    (∀ g ∈ gs, g.count.all (fun m => posMatchCount g.word c.word == m) = true)
    (by
      unfold SpecConsistent
      refine forall₂_congr (fun g _ => ?_)
      cases hc : g.count with
      | none => simp
      | some m => simp [Option.all])

/-- Specification-side reading of the line grammar (spec 4.1): the line is a
non-alphabetic prefix, then a nonempty maximal alphabetic run (the word),
then a maximal whitespace run, then a maximal digit run (the count string),
then the ignored remainder. -/
def ExtractSpec (line w cs : List Char) : Prop :=
  ∃ pre mid post,
    line = pre ++ w ++ mid ++ cs ++ post ∧
    (∀ c ∈ pre, ¬ c.isAlpha) ∧
    w ≠ [] ∧
    (∀ c ∈ w, c.isAlpha) ∧
    (∀ c ∈ mid, isPosixSpace c) ∧
    (∀ c ∈ cs, c.isDigit) ∧
    (∀ c, (mid ++ cs ++ post).head? = some c → ¬ c.isAlpha) ∧
    (∀ c, (cs ++ post).head? = some c → ¬ isPosixSpace c) ∧
    (∀ c, post.head? = some c → ¬ c.isDigit)

/-! ### Lemmas about the positional-match count -/

theorem commonCount_eq_posMatchCount :
    ∀ (a b : List Char), a.length ≤ b.length →
      commonCount a b = some (posMatchCount a b)
  | [], _, _ => by simp [commonCount, posMatchCount]
  | x :: xs, [], h => by simp at h
  | x :: xs, y :: ys, h => by
    have ih := commonCount_eq_posMatchCount xs ys (by simpa using h)
    simp only [commonCount, ih, posMatchCount, List.zip_cons_cons,
      List.countP_cons]
    by_cases hxy : x = y <;> simp [hxy]

theorem commonCount_isSome_iff :
    ∀ (a b : List Char), (commonCount a b).isSome ↔ a.length ≤ b.length
  | [], _ => by simp [commonCount]
  | x :: xs, [] => by simp [commonCount]
  | x :: xs, y :: ys => by
    have ih := commonCount_isSome_iff xs ys
    simp only [commonCount, List.length_cons]
    cases hc : commonCount xs ys with
    | none => simpa [hc] using ih
    | some n => simpa [hc] using ih

theorem posMatchCount_le (a b : List Char) : posMatchCount a b ≤ a.length :=
  calc (a.zip b).countP (fun p => p.1 = p.2) ≤ (a.zip b).length :=
        List.countP_le_length _
    _ ≤ a.length := by
        rw [List.length_zip]; exact min_le_left _ _

theorem posMatchCount_eq_length_iff :
    ∀ (a b : List Char), a.length = b.length →
      (posMatchCount a b = a.length ↔ a = b)
  | [], [], _ => by simp [posMatchCount]
  | [], y :: ys, h => by simp at h
  | x :: xs, [], h => by simp at h
  | x :: xs, y :: ys, h => by
    have ih := posMatchCount_eq_length_iff xs ys (by simpa using h)
    have hle := posMatchCount_le xs ys
    simp only [posMatchCount, List.zip_cons_cons, List.countP_cons,
      List.length_cons] at ih hle ⊢
    by_cases hxy : x = y
    · subst hxy
      rw [if_pos (by simp)]
      constructor
      · intro hsum
        rw [ih.mp (by omega)]
      · intro heq
        injection heq with h1 h2
        have := ih.mpr h2
        omega
    · rw [if_neg (by simp [hxy])]
      constructor
      · intro hsum; omega
      · intro heq
        injection heq with h1 h2
        exact absurd h1 hxy

theorem commonCount_comm :
    ∀ (a b : List Char), a.length = b.length → commonCount a b = commonCount b a
  | [], [], _ => rfl
  | [], _ :: _, h => by simp at h
  | _ :: _, [], h => by simp at h
  | x :: xs, y :: ys, h => by
    have ih := commonCount_comm xs ys (by simpa using h)
    simp only [commonCount, ← ih]
    cases commonCount xs ys with
    | none => rfl
    | some n =>
      by_cases hxy : x = y
      · rw [hxy]
      · show some (if x = y then n + 1 else n) = some (if y = x then n + 1 else n)
        rw [if_neg hxy, if_neg (fun hyx => hxy hyx.symm)]

/-! ### Lemmas about `SpecConsistent` and the filter -/

theorem specConsistent_nil (c : Guess) : SpecConsistent [] c := by
  intro g hg; simp at hg

theorem specConsistent_cons {g : Guess} {rest : List Guess} {c : Guess} :
    SpecConsistent (g :: rest) c ↔
      (∀ m, g.count = some m → posMatchCount g.word c.word = m) ∧
        SpecConsistent rest c := by
  unfold SpecConsistent
  exact List.forall_mem_cons

theorem specConsistent_filter_isSome (gs : List Guess) (c : Guess) :
    SpecConsistent (gs.filter (fun g => g.count.isSome)) c ↔
      SpecConsistent gs c := by
  unfold SpecConsistent
  constructor
  · intro h g hg m hm
    exact h g (List.mem_filter.mpr ⟨hg, by simp [hm]⟩) m hm
  · intro h g hg m hm
    exact h g (List.mem_filter.mp hg).1 m hm

theorem allClues_eq (clues : List Guess) (cand : Guess)
    (hc : ∀ g ∈ clues, ∃ m, g.count = some m)
    (hl : ∀ g ∈ clues, g.word.length ≤ cand.word.length) :
    allClues clues cand = some (decide (SpecConsistent clues cand)) := by
  induction clues with
  | nil =>
    simp [allClues, specConsistent_nil]
  | cons g rest ih =>
    obtain ⟨m, hm⟩ := hc g (by simp)
    have hcc := commonCount_eq_posMatchCount g.word cand.word (hl g (by simp))
    have hct : clueTest g cand
        = some (posMatchCount g.word cand.word == m) := by
      simp [clueTest, Guess.numOfCommonLetters, hcc, hm]
    have ihr := ih (fun g' h' => hc g' (by simp [h']))
      (fun g' h' => hl g' (by simp [h']))
    have hiff : SpecConsistent (g :: rest) cand ↔
        (posMatchCount g.word cand.word = m ∧ SpecConsistent rest cand) := by
      rw [specConsistent_cons]
      constructor
      · rintro ⟨h1, h2⟩; exact ⟨h1 m hm, h2⟩
      · rintro ⟨h1, h2⟩
        refine ⟨fun m' hm' => ?_, h2⟩
        rw [hm] at hm'; injection hm' with hm''; rw [← hm'']; exact h1
    rw [allClues, hct]
    by_cases hpm : posMatchCount g.word cand.word = m
    · rw [show (posMatchCount g.word cand.word == m) = true by simp [hpm]]
      rw [ihr]
      have : (decide (SpecConsistent (g :: rest) cand))
          = (decide (SpecConsistent rest cand)) := by
        rw [decide_eq_decide, hiff]
        constructor
        · rintro ⟨_, h2⟩; exact h2
        · intro h2; exact ⟨hpm, h2⟩
      rw [this]
    · rw [show (posMatchCount g.word cand.word == m) = false by simp [hpm]]
      have : (decide (SpecConsistent (g :: rest) cand)) = false := by
        simp only [decide_eq_false_iff_not, hiff]
        rintro ⟨h1, _⟩; exact hpm h1
      rw [this]

theorem filterConsistent_eq (clues : List Guess) (cands : List Guess)
    (hc : ∀ g ∈ clues, ∃ m, g.count = some m)
    (hl : ∀ g ∈ clues, ∀ c ∈ cands, g.word.length ≤ c.word.length) :
    filterConsistent clues cands
      = some (cands.filter (fun c => decide (SpecConsistent clues c))) := by
  induction cands with
  | nil => simp [filterConsistent]
  | cons cand rest ih =>
    have ha := allClues_eq clues cand hc (fun g hg => hl g hg cand (by simp))
    have ihr := ih (fun g hg c hcn => hl g hg c (by simp [hcn]))
    rw [filterConsistent, ha, ihr]
    by_cases hP : SpecConsistent clues cand
    · rw [show (decide (SpecConsistent clues cand)) = true by simp [hP]]
      simp [List.filter_cons, hP]
    · rw [show (decide (SpecConsistent clues cand)) = false by simp [hP]]
      simp [List.filter_cons, hP]

theorem mem_filterConsistent :
    ∀ (clues cands out : List Guess), filterConsistent clues cands = some out →
      ∀ c ∈ out, c ∈ cands ∧ allClues clues c = some true
  | clues, [], out, h => by
    simp only [filterConsistent, Option.some.injEq] at h
    subst h; simp
  | clues, cand :: rest, out, h => by
    rw [filterConsistent] at h
    cases hac : allClues clues cand with
    | none => rw [hac] at h; exact Option.noConfusion h
    | some b =>
      rw [hac] at h
      cases b with
      | false =>
        intro c hcm
        have := mem_filterConsistent clues rest out h c hcm
        exact ⟨by simp [this.1], this.2⟩
      | true =>
        cases hfr : filterConsistent clues rest with
        | none => rw [hfr] at h; exact Option.noConfusion h
        | some out' =>
          rw [hfr] at h
          injection h with h'
          subst h'
          intro c hcm
          rcases List.mem_cons.mp hcm with rfl | hcm'
          · exact ⟨by simp, hac⟩
          · have := mem_filterConsistent clues rest out' hfr c hcm'
            exact ⟨by simp [this.1], this.2⟩

theorem filterConsistent_of_all (clues : List Guess) :
    ∀ (l : List Guess), (∀ c ∈ l, allClues clues c = some true) →
      filterConsistent clues l = some l
  | [], _ => rfl
  | cand :: rest, h => by
    rw [filterConsistent, h cand (by simp),
      filterConsistent_of_all clues rest (fun c hc => h c (by simp [hc]))]

theorem allClues_true_mem :
    ∀ (clues : List Guess) (cand : Guess), allClues clues cand = some true →
      ∀ g ∈ clues, clueTest g cand = some true
  | [], _, _ => by simp
  | clue :: rest, cand, h => by
    rw [allClues] at h
    cases hct : clueTest clue cand with
    | none => rw [hct] at h; exact Option.noConfusion h
    | some b =>
      rw [hct] at h
      cases b with
      | false => exact absurd h (by simp)
      | true =>
        intro g hg
        rcases List.mem_cons.mp hg with rfl | hg'
        · exact hct
        · exact allClues_true_mem rest cand h g hg'

/-! ### Lemmas about the line parser -/

theorem head?_dropWhile_not (p : Char → Bool) :
    ∀ (l : List Char) (c : Char), (l.dropWhile p).head? = some c → ¬ p c
  | [], c, h => by simp [List.dropWhile] at h
  | x :: xs, c, h => by
    rw [List.dropWhile_cons] at h
    by_cases hx : p x
    · rw [if_pos hx] at h
      exact head?_dropWhile_not p xs c h
    · rw [if_neg hx] at h
      simp only [List.head?_cons, Option.some.injEq] at h
      subst h; exact hx

theorem extract_eq_none_iff : ∀ (line : List Char),
    extract line = none ↔ ∀ c ∈ line, ¬ c.isAlpha
  | [] => by simp [extract]
  | c :: rest => by
    rw [extract]
    by_cases hc : c.isAlpha
    · simp [hc]
    · simp [hc, extract_eq_none_iff rest]

theorem extract_spec : ∀ (line w cs : List Char),
    extract line = some (w, cs) → ExtractSpec line w cs
  | [], w, cs, h => by simp [extract] at h
  | c :: rest, w, cs, h => by
    rw [extract] at h
    by_cases hc : c.isAlpha
    · rw [if_pos hc] at h
      injection h with h'
      injection h' with hw hcs
      -- the segments produced by the takeWhile/dropWhile chain
      have hsplit1 : (c :: rest).takeWhile Char.isAlpha
          ++ (c :: rest).dropWhile Char.isAlpha = c :: rest :=
        List.takeWhile_append_dropWhile _ _
      have hsplit2 :
          ((c :: rest).dropWhile Char.isAlpha).takeWhile isPosixSpace
            ++ ((c :: rest).dropWhile Char.isAlpha).dropWhile isPosixSpace
            = (c :: rest).dropWhile Char.isAlpha :=
        List.takeWhile_append_dropWhile _ _
      have hsplit3 :
          (((c :: rest).dropWhile Char.isAlpha).dropWhile
              isPosixSpace).takeWhile Char.isDigit
            ++ (((c :: rest).dropWhile Char.isAlpha).dropWhile
              isPosixSpace).dropWhile Char.isDigit
            = ((c :: rest).dropWhile Char.isAlpha).dropWhile isPosixSpace :=
        List.takeWhile_append_dropWhile _ _
      refine ⟨[],
        ((c :: rest).dropWhile Char.isAlpha).takeWhile isPosixSpace,
        (((c :: rest).dropWhile Char.isAlpha).dropWhile
          isPosixSpace).dropWhile Char.isDigit,
        ?_, ?_, ?_, ?_, ?_, ?_, ?_, ?_, ?_⟩
      · rw [List.nil_append, ← hw, ← hcs, List.append_assoc, hsplit3,
          List.append_assoc, hsplit2, hsplit1]
      · intro a ha; simp at ha
      · rw [← hw, List.takeWhile_cons, if_pos hc]
        exact List.cons_ne_nil _ _
      · intro a ha; rw [← hw] at ha; exact List.mem_takeWhile_imp ha
      · intro a ha; exact List.mem_takeWhile_imp ha
      · intro a ha; rw [← hcs] at ha; exact List.mem_takeWhile_imp ha
      · intro a ha
        rw [← hcs, List.append_assoc, hsplit3, hsplit2] at ha
        exact head?_dropWhile_not Char.isAlpha _ a ha
      · intro a ha
        rw [← hcs, hsplit3] at ha
        exact head?_dropWhile_not isPosixSpace _ a ha
      · intro a ha
        exact head?_dropWhile_not Char.isDigit _ a ha
    · rw [if_neg hc] at h
      obtain ⟨pre, mid, post, h1, h2, h3, h4, h5, h6, h7, h8, h9⟩ :=
        extract_spec rest w cs h
      refine ⟨c :: pre, mid, post, ?_, ?_, h3, h4, h5, h6, h7, h8, h9⟩
      · rw [h1]; simp
      · intro a ha
        rcases List.mem_cons.mp ha with rfl | ha'
        · exact hc
        · exact h2 a ha'

theorem tryFrom_err_shape (l : List Char) (e : Error)
    (h : tryFrom l = PResult.err e) : ∃ d, e = Error.parseGuess l d := by
  cases hx : extract l with
  | none =>
    simp only [tryFrom, hx] at h
    injection h with h'
    exact ⟨_, h'.symm⟩
  | some wc =>
    obtain ⟨w, cs⟩ := wc
    simp only [tryFrom, hx] at h
    by_cases h1 : cs.length > 0
    · rw [if_pos h1] at h
      by_cases h2 : digitsToNat cs ≤ usizeMax
      · rw [if_pos h2] at h
        by_cases h3 : digitsToNat cs > w.length
        · rw [if_pos h3] at h
          injection h with h'
          exact ⟨_, h'.symm⟩
        · rw [if_neg h3] at h
          exact PResult.noConfusion h
      · rw [if_neg h2] at h
        exact PResult.noConfusion h
    · rw [if_neg h1] at h
      exact PResult.noConfusion h

theorem tryFrom_ok_word (l : List Char) (g : Guess)
    (h : tryFrom l = PResult.ok g) : ∃ cs, extract l = some (g.word, cs) := by
  cases hx : extract l with
  | none => simp only [tryFrom, hx] at h; exact PResult.noConfusion h
  | some wc =>
    obtain ⟨w, cs⟩ := wc
    simp only [tryFrom, hx] at h
    by_cases h1 : cs.length > 0
    · rw [if_pos h1] at h
      by_cases h2 : digitsToNat cs ≤ usizeMax
      · rw [if_pos h2] at h
        by_cases h3 : digitsToNat cs > w.length
        · rw [if_pos h3] at h
          exact PResult.noConfusion h
        · rw [if_neg h3] at h
          injection h with h'
          subst h'
          exact ⟨cs, rfl⟩
      · rw [if_neg h2] at h
        exact PResult.noConfusion h
    · rw [if_neg h1] at h
      injection h with h'
      subst h'
      exact ⟨cs, rfl⟩

theorem tryFrom_format_err_iff (l : List Char) :
    tryFrom l = PResult.err (Error.parseGuess l "wrong guess format") ↔
      extract l = none := by
  constructor
  · intro h
    cases hx : extract l with
    | none => rfl
    | some wc =>
      obtain ⟨w, cs⟩ := wc
      exfalso
      simp only [tryFrom, hx] at h
      by_cases h1 : cs.length > 0
      · rw [if_pos h1] at h
        by_cases h2 : digitsToNat cs ≤ usizeMax
        · rw [if_pos h2] at h
          by_cases h3 : digitsToNat cs > w.length
          · rw [if_pos h3] at h
            injection h with h'
            injection h' with hl hd
            exact absurd hd (by decide)
          · rw [if_neg h3] at h
            exact PResult.noConfusion h
        · rw [if_neg h2] at h
          exact PResult.noConfusion h
      · rw [if_neg h1] at h
        exact PResult.noConfusion h
  · intro h
    simp only [tryFrom, h]

/-! ### Lemmas about line splitting and the loader -/

theorem splitNl_ne_nil : ∀ (s : List Char), splitNl s ≠ []
  | [] => by simp [splitNl]
  | c :: rest => by
    rw [splitNl]
    by_cases hc : c = '\n'
    · rw [if_pos hc]; exact List.cons_ne_nil _ _
    · rw [if_neg hc]
      cases splitNl rest with
      | nil => exact List.cons_ne_nil _ _
      | cons l ls => exact List.cons_ne_nil _ _

theorem splitNl_eq_singleton_nil_iff :
    ∀ (s : List Char), splitNl s = [[]] ↔ s = []
  | [] => by simp [splitNl]
  | c :: rest => by
    constructor
    · intro h
      rw [splitNl] at h
      by_cases hc : c = '\n'
      · rw [if_pos hc] at h
        injection h with h1 h2
        exact absurd h2 (splitNl_ne_nil rest)
      · rw [if_neg hc] at h
        cases hr : splitNl rest with
        | nil => exact absurd hr (splitNl_ne_nil rest)
        | cons l ls =>
          rw [hr] at h
          injection h with h1 h2
          exact absurd h1 (List.cons_ne_nil _ _)
    · intro h
      exact absurd h (List.cons_ne_nil _ _)

theorem rustLines_eq_nil_iff (s : List Char) : rustLines s = [] ↔ s = [] := by
  rw [← splitNl_eq_singleton_nil_iff]
  cases hp : splitNl s with
  | nil => exact absurd hp (splitNl_ne_nil s)
  | cons p ps =>
    cases ps with
    | nil =>
      cases p with
      | nil => simp [rustLines, hp]
      | cons a l => simp [rustLines, hp]
    | cons q qs =>
      cases hgl : (q :: qs).getLast? with
      | none =>
        exfalso
        rw [List.getLast?_eq_none_iff] at hgl
        exact List.cons_ne_nil _ _ hgl
      | some lst =>
        cases lst with
        | nil =>
          simp [rustLines, hp, List.getLast?_cons_cons, hgl,
            List.dropLast_cons₂]
        | cons a l =>
          simp [rustLines, hp, List.getLast?_cons_cons, hgl,
            List.dropLast_cons₂]

theorem parseAll_ok_length : ∀ (ls : List (List Char)) (gs : List Guess),
    parseAll ls = PResult.ok gs → gs.length = ls.length
  | [], gs, h => by
    rw [parseAll] at h
    injection h with h'
    simp [← h']
  | l :: ls, gs, h => by
    rw [parseAll] at h
    cases ht : tryFrom l with
    | ok g =>
      rw [ht] at h
      cases hp : parseAll ls with
      | ok gs' =>
        rw [hp] at h
        injection h with h'
        rw [← h', List.length_cons, List.length_cons,
          parseAll_ok_length ls gs' hp]
      | err e => rw [hp] at h; exact PResult.noConfusion h
      | panicked => rw [hp] at h; exact PResult.noConfusion h
    | err e => rw [ht] at h; exact PResult.noConfusion h
    | panicked => rw [ht] at h; exact PResult.noConfusion h

theorem parseAll_ok_nil (ls : List (List Char)) (h : ls = []) :
    parseAll ls = PResult.ok [] := by
  rw [h, parseAll]

theorem parseAll_err_shape : ∀ (ls : List (List Char)) (e : Error),
    parseAll ls = PResult.err e → ∃ l d, e = Error.parseGuess l d
  | [], e, h => by rw [parseAll] at h; exact PResult.noConfusion h
  | l :: ls, e, h => by
    rw [parseAll] at h
    cases ht : tryFrom l with
    | ok g =>
      rw [ht] at h
      cases hp : parseAll ls with
      | ok gs' => rw [hp] at h; exact PResult.noConfusion h
      | err e' =>
        rw [hp] at h
        injection h with h'
        subst h'
        exact parseAll_err_shape ls e' hp
      | panicked => rw [hp] at h; exact PResult.noConfusion h
    | err e' =>
      rw [ht] at h
      injection h with h'
      subst h'
      obtain ⟨d, hd⟩ := tryFrom_err_shape l e' ht
      exact ⟨l, d, hd⟩
    | panicked => rw [ht] at h; exact PResult.noConfusion h

theorem parseGuesses_eq_validate (input : List Char) (gs : List Guess)
    (hp : parseAll (rustLines input) = PResult.ok gs) :
    parseGuessesFromInput input = validateGuesses gs := by
  simp only [parseGuessesFromInput, hp]

theorem validate_cons (g0 : Guess) (rest : List Guess) :
    validateGuesses (g0 :: rest)
      = if (g0 :: rest).all (fun g => g.word.length == g0.word.length)
          then PResult.ok (g0 :: rest)
          else PResult.err Error.unequalLengths := rfl

theorem parseGuesses_ok_spec (input : List Char) (gs : List Guess)
    (h : parseGuessesFromInput input = PResult.ok gs) :
    parseAll (rustLines input) = PResult.ok gs ∧
      ∃ g0 rest, gs = g0 :: rest ∧
        ∀ g ∈ gs, g.word.length = g0.word.length := by
  cases hp : parseAll (rustLines input) with
  | ok gs' =>
    rw [parseGuesses_eq_validate input gs' hp] at h
    cases hg : gs' with
    | nil => rw [hg] at h; exact PResult.noConfusion h
    | cons g0 rest =>
      subst hg
      rw [validate_cons] at h
      by_cases hall : (g0 :: rest).all (fun g => g.word.length == g0.word.length)
      · rw [if_pos hall] at h
        injection h with h'
        subst h'
        refine ⟨rfl, g0, rest, rfl, ?_⟩
        intro g hgm
        have := List.all_eq_true.mp hall g hgm
        simpa using this
      · rw [if_neg hall] at h
        exact PResult.noConfusion h
  | err e =>
    simp only [parseGuessesFromInput, hp] at h
    exact PResult.noConfusion h
  | panicked =>
    simp only [parseGuessesFromInput, hp] at h
    exact PResult.noConfusion h

/-! ### Claim theorems -/

/-- Claim C1: for every validated sequence of Guesses (all words of equal
length), the filter's output is exactly the subsequence of candidates
(guesses with absent count), in input order, whose positional-match count
against every clue equals the clue's declared count; with zero clues every
candidate is kept (here: the output is the whole list, all of whose members
are candidates). -/
theorem c1_consistent_filter (gs : List Guess) (n : Nat)
    (h : ∀ g ∈ gs, g.word.length = n) :
    filterCandidates gs
      = some ((gs.filter (fun g => g.count.isNone)).filter
          (fun c => decide (SpecConsistent gs c))) ∧
    ((∀ g ∈ gs, g.count = none) →
      filterCandidates gs = some gs ∧
        gs.filter (fun g => g.count.isNone) = gs) := by
  have hc : ∀ g ∈ gs.filter (fun g => g.count.isSome),
      ∃ m, g.count = some m := by
    intro g hg
    exact Option.isSome_iff_exists.mp (List.mem_filter.mp hg).2
  have hl : ∀ g ∈ gs.filter (fun g => g.count.isSome),
      ∀ c ∈ gs.filter (fun g => g.count.isNone),
        g.word.length ≤ c.word.length := by
    intro g hg c hcm
    rw [h g (List.mem_filter.mp hg).1, h c (List.mem_filter.mp hcm).1]
  constructor
  · have key := filterConsistent_eq (gs.filter (fun g => g.count.isSome))
      (gs.filter (fun g => g.count.isNone)) hc hl
    have congrf : (gs.filter (fun g => g.count.isNone)).filter
        (fun c => decide
          (SpecConsistent (gs.filter (fun g => g.count.isSome)) c))
        = (gs.filter (fun g => g.count.isNone)).filter
          (fun c => decide (SpecConsistent gs c)) := by
      apply List.filter_congr
      intro c _
      rw [decide_eq_decide]
      exact specConsistent_filter_isSome gs c
    exact key.trans (congrArg some congrf)
  · intro hnone
    have h1 : gs.filter (fun g => g.count.isNone) = gs := by
      rw [List.filter_eq_self]
      intro g hg; simp [hnone g hg]
    have h2 : gs.filter (fun g => g.count.isSome) = [] := by
      rw [List.filter_eq_nil_iff]
      intro g hg; simp [hnone g hg]
    refine ⟨?_, h1⟩
    have hrw : filterCandidates gs = filterConsistent [] gs := by
      unfold filterCandidates
      rw [h1, h2]
    rw [hrw, filterConsistent_of_all [] gs (fun c _ => rfl)]

/-- Witness for C1 at the spec's scenario 1 (`apple`, `angle 2`). -/
theorem c1_witness :
    (∀ g ∈ [Guess.mk "angle".toList (some 2), Guess.mk "apple".toList none],
        g.word.length = 5) ∧
    filterCandidates
        [Guess.mk "angle".toList (some 2), Guess.mk "apple".toList none]
      = some (([Guess.mk "angle".toList (some 2),
            Guess.mk "apple".toList none].filter
              (fun g => g.count.isNone)).filter
          (fun c => decide (SpecConsistent
            [Guess.mk "angle".toList (some 2),
              Guess.mk "apple".toList none] c))) :=
  ⟨by decide, (c1_consistent_filter _ 5 (by decide)).1⟩

/-- Claim C2: the claim says the parser fails with a `ParseError` exactly
when the digit run's numeric value exceeds the word's length. The code
instead panics when the value also exceeds `usize::MAX`, because
`count_str.parse::<usize>()` returns `Err(PosOverflow)` and the
`expect("the regex should not allow this to fail")` aborts the process:
the code contradicts its own assertion. Evaluation at the failing input
`"a 18446744073709551616"` (value `2^64`, word length 1). -/
theorem c2_count_overflow_panics :
    tryFrom ("a 18446744073709551616".toList) = PResult.panicked ∧
    digitsToNat ("18446744073709551616".toList) = 2 ^ 64 ∧
    ("a".toList).length = 1 := by decide

/-- Claim C3: the parser's word extraction follows the leftmost-greedy
reading of the regex: the line decomposes into a non-alphabetic prefix, a
nonempty maximal alphabetic run (the word), a maximal whitespace run, a
maximal digit run (the count string) and an ignored remainder
(`ExtractSpec`); the format-mismatch `ParseError` (detail
"wrong guess format") occurs exactly when the line has no alphabetic
character (a line with an alphabetic run can still fail with the distinct
count-exceeds error, covered by C2); a successful parse uses the extracted
run as the word. -/
theorem c3_word_extraction (line : List Char) :
    (tryFrom line = PResult.err (Error.parseGuess line "wrong guess format")
        ↔ ∀ c ∈ line, ¬ c.isAlpha) ∧
    (∀ w cs, extract line = some (w, cs) → ExtractSpec line w cs) ∧
    (∀ g, tryFrom line = PResult.ok g →
      ∃ cs, extract line = some (g.word, cs)) :=
  ⟨(tryFrom_format_err_iff line).trans (extract_eq_none_iff line),
    fun w cs h => extract_spec line w cs h,
    fun g h => tryFrom_ok_word line g h⟩

/-- Witness for C3: extraction on `"3cat 12x"` and the format error on
`"123"`. -/
theorem c3_witness :
    ExtractSpec ("3cat 12x".toList) ("cat".toList) ("12".toList) ∧
    tryFrom ("123".toList)
      = PResult.err (Error.parseGuess ("123".toList) "wrong guess format") :=
  ⟨(c3_word_extraction ("3cat 12x".toList)).2.1 _ _ (by decide),
    (c3_word_extraction ("123".toList)).1.mpr (by decide)⟩

/-- Claim C4: when every line parses, validation fails with
`UnequalLengthsError` if and only if some word's length differs from the
first guess's word length; when all lengths agree the full ordered sequence
is returned. -/
theorem c4_unequal_lengths_iff (input : List Char) (gs : List Guess)
    (g0 : Guess) (rest : List Guess)
    (hparse : parseAll (rustLines input) = PResult.ok gs)
    (hgs : gs = g0 :: rest) :
    (parseGuessesFromInput input = PResult.err Error.unequalLengths ↔
      ∃ g ∈ gs, g.word.length ≠ g0.word.length) ∧
    ((∀ g ∈ gs, g.word.length = g0.word.length) →
      parseGuessesFromInput input = PResult.ok gs) := by
  subst hgs
  rw [parseGuesses_eq_validate input _ hparse, validate_cons]
  by_cases hall : (g0 :: rest).all (fun g => g.word.length == g0.word.length)
  · rw [if_pos hall]
    have hforall : ∀ g ∈ g0 :: rest, g.word.length = g0.word.length := by
      intro g hg
      simpa using List.all_eq_true.mp hall g hg
    constructor
    · constructor
      · intro h; exact PResult.noConfusion h
      · rintro ⟨g, hg, hne⟩; exact absurd (hforall g hg) hne
    · intro _; rfl
  · rw [if_neg hall]
    have hex : ∃ g ∈ g0 :: rest, g.word.length ≠ g0.word.length := by
      by_contra hcon
      push_neg at hcon
      exact hall (List.all_eq_true.mpr (fun g hg => by simp [hcon g hg]))
    constructor
    · exact ⟨fun _ => hex, fun _ => rfl⟩
    · intro hforall
      exact absurd (List.all_eq_true.mpr (fun g hg => by simp [hforall g hg]))
        hall

/-- Witness for C4 at the spec's scenario 5 (`ab`, `abc 1`). -/
theorem c4_witness :
    parseAll (rustLines ("ab\nabc 1".toList))
      = PResult.ok [Guess.mk "ab".toList none, Guess.mk "abc".toList (some 1)] ∧
    parseGuessesFromInput ("ab\nabc 1".toList)
      = PResult.err Error.unequalLengths :=
  ⟨by decide,
    (c4_unequal_lengths_iff ("ab\nabc 1".toList)
        [Guess.mk "ab".toList none, Guess.mk "abc".toList (some 1)]
        (Guess.mk "ab".toList none) [Guess.mk "abc".toList (some 1)]
        (by decide) rfl).1.mpr
      ⟨Guess.mk "abc".toList (some 1), by decide, by decide⟩⟩

/-- Claim C5: the loader fails with `NoGuessesError` if and only if the
input is empty (equivalently, it has no lines); a non-empty non-matching
line yields a `ParseError` at the parser, and lines are never silently
skipped: a successful parse produces exactly one guess per line. -/
theorem c5_no_guesses_iff (input : List Char) :
    (parseGuessesFromInput input = PResult.err Error.noGuesses ↔ input = []) ∧
    (rustLines input = [] ↔ input = []) ∧
    (∀ l : List Char, l ≠ [] → (∀ c ∈ l, ¬ c.isAlpha) →
      tryFrom l = PResult.err (Error.parseGuess l "wrong guess format")) ∧
    (∀ gs, parseAll (rustLines input) = PResult.ok gs →
      gs.length = (rustLines input).length) := by
  refine ⟨?_, rustLines_eq_nil_iff input, ?_, ?_⟩
  · constructor
    · intro h
      rw [← rustLines_eq_nil_iff]
      cases hp : parseAll (rustLines input) with
      | ok gs =>
        rw [parseGuesses_eq_validate input gs hp] at h
        cases hg : gs with
        | nil =>
          subst hg
          have hlen := parseAll_ok_length _ _ hp
          exact List.length_eq_zero.mp hlen.symm
        | cons g0 rest =>
          subst hg
          rw [validate_cons] at h
          by_cases hall :
              (g0 :: rest).all (fun g => g.word.length == g0.word.length)
          · rw [if_pos hall] at h
            exact PResult.noConfusion h
          · rw [if_neg hall] at h
            injection h with h'
            exact Error.noConfusion h'
      | err e =>
        simp only [parseGuessesFromInput, hp] at h
        injection h with h'
        obtain ⟨l, d, hd⟩ := parseAll_err_shape _ _ hp
        rw [hd] at h'
        exact Error.noConfusion h'
      | panicked =>
        simp only [parseGuessesFromInput, hp] at h
        exact PResult.noConfusion h
    · intro h
      have hla : rustLines input = [] := (rustLines_eq_nil_iff input).mpr h
      have hp : parseAll (rustLines input) = PResult.ok [] := by
        rw [hla]; rfl
      rw [parseGuesses_eq_validate input [] hp]
      rfl
  · intro l hne hna
    have hx : extract l = none := (extract_eq_none_iff l).mpr hna
    simp only [tryFrom, hx]
  · intro gs hp
    exact parseAll_ok_length _ _ hp

/-- Witness for C5: empty input gives `NoGuessesError`; the non-matching
line `"!?"` gives a `ParseError`. -/
theorem c5_witness :
    parseGuessesFromInput ([] : List Char) = PResult.err Error.noGuesses ∧
    tryFrom ("!?".toList)
      = PResult.err (Error.parseGuess ("!?".toList) "wrong guess format") :=
  ⟨(c5_no_guesses_iff []).1.mpr rfl,
    (c5_no_guesses_iff []).2.2.1 ("!?".toList) (by decide) (by decide)⟩

/-- Claim C6: the claim says that on any parse or validation failure the
program writes one error description to the error stream and exits with
status 1, and otherwise exits with status 0. The code instead panics on a
count digit run whose value exceeds `usize::MAX` (the `expect` asserts this
cannot happen, wrongly): the process aborts with a panic message and exit
code 101. Evaluation of the whole program at the failing input. -/
theorem c6_overflow_exit_status :
    mainModel ("a 18446744073709551616".toList)
      = ([], StderrOut.panicMsg, 101) := by decide

/-- Claim C7: the filter is idempotent: re-filtering its own output with
the same clues returns the output unchanged. -/
theorem c7_filter_idempotent (clues cands out : List Guess) (n : Nat)
    (_hc : ∀ g ∈ clues, g.word.length = n)
    (_hd : ∀ g ∈ cands, g.word.length = n)
    (h : filterConsistent clues cands = some out) :
    filterConsistent clues out = some out :=
  filterConsistent_of_all clues out
    (fun c hcm => (mem_filterConsistent clues cands out h c hcm).2)

/-- Witness for C7: clue `dog 0` over candidates `cat`, `dot`. -/
theorem c7_witness :
    filterConsistent [Guess.mk "dog".toList (some 0)]
        [Guess.mk "cat".toList none, Guess.mk "dot".toList none]
      = some [Guess.mk "cat".toList none] ∧
    filterConsistent [Guess.mk "dog".toList (some 0)]
        [Guess.mk "cat".toList none]
      = some [Guess.mk "cat".toList none] :=
  ⟨by decide,
    c7_filter_idempotent [Guess.mk "dog".toList (some 0)]
      [Guess.mk "cat".toList none, Guess.mk "dot".toList none]
      [Guess.mk "cat".toList none] 3 (by decide) (by decide) (by decide)⟩

/-- Claim C8: the positional-match count is symmetric for equal-length
alphabetic (ASCII) words. -/
theorem c8_common_letters_symm (a b : Guess)
    (hlen : a.word.length = b.word.length)
    (_ha : ∀ c ∈ a.word, c.isAlpha) (_hb : ∀ c ∈ b.word, c.isAlpha) :
    Guess.numOfCommonLetters a b = Guess.numOfCommonLetters b a :=
  commonCount_comm a.word b.word hlen

/-- Witness for C8 on `abc` and `abd`. -/
theorem c8_witness :
    (Guess.mk "abc".toList none).word.length
        = (Guess.mk "abd".toList (some 1)).word.length ∧
    Guess.numOfCommonLetters (Guess.mk "abc".toList none)
        (Guess.mk "abd".toList (some 1))
      = Guess.numOfCommonLetters (Guess.mk "abd".toList (some 1))
        (Guess.mk "abc".toList none) :=
  ⟨by decide,
    c8_common_letters_symm _ _ (by decide) (by decide) (by decide)⟩

/-- Claim C9: a clue whose declared count equals its own word's length is
passed exactly by candidates whose word is identical to the clue's word;
consequently, in a validated run containing such a clue, every surviving
candidate's word equals the clue's word. -/
theorem c9_full_count_clue (clue : Guess)
    (hcount : clue.count = some clue.word.length) :
    (∀ cand : Guess, cand.word.length = clue.word.length →
      (clueTest clue cand = some true ↔ cand.word = clue.word)) ∧
    (∀ gs out, clue ∈ gs →
      (∀ g ∈ gs, g.word.length = clue.word.length) →
      filterCandidates gs = some out →
      ∀ c ∈ out, c.word = clue.word) := by
  have key : ∀ cand : Guess, cand.word.length = clue.word.length →
      (clueTest clue cand = some true ↔ cand.word = clue.word) := by
    intro cand hlen
    have hcc := commonCount_eq_posMatchCount clue.word cand.word (by rw [hlen])
    simp only [clueTest, Guess.numOfCommonLetters, hcc, hcount,
      Option.some.injEq]
    constructor
    · intro hb
      have hpm : posMatchCount clue.word cand.word = clue.word.length := by
        simpa using hb
      exact ((posMatchCount_eq_length_iff clue.word cand.word
        hlen.symm).mp hpm).symm
    · intro hw
      have hpm : posMatchCount clue.word cand.word = clue.word.length :=
        (posMatchCount_eq_length_iff clue.word cand.word hlen.symm).mpr hw.symm
      simp [hpm]
  refine ⟨key, ?_⟩
  intro gs out hmem hlen hfc c hcm
  have hm := mem_filterConsistent (gs.filter (fun g => g.count.isSome))
    (gs.filter (fun g => g.count.isNone)) out hfc c hcm
  have hclue : clue ∈ gs.filter (fun g => g.count.isSome) :=
    List.mem_filter.mpr ⟨hmem, by simp [hcount]⟩
  have hct := allClues_true_mem _ c hm.2 clue hclue
  exact (key c (hlen c (List.mem_filter.mp hm.1).1)).mp hct

/-- Witness for C9: clue `cat 3` against candidate `cat`. -/
theorem c9_witness :
    (Guess.mk "cat".toList (some 3)).count
        = some (Guess.mk "cat".toList (some 3)).word.length ∧
    clueTest (Guess.mk "cat".toList (some 3)) (Guess.mk "cat".toList none)
      = some true :=
  ⟨by decide,
    ((c9_full_count_clue _ (by decide)).1 (Guess.mk "cat".toList none)
      (by decide)).mpr (by decide)⟩

/-- Claim C10: on loader-validated input the filtering phase is total:
every pairwise positional comparison is in bounds (no byte-index panic),
the filter returns a value, and the whole run succeeds. -/
theorem c10_filter_total (input : List Char) (gs : List Guess)
    (h : parseGuessesFromInput input = PResult.ok gs) :
    (∀ a ∈ gs, ∀ b ∈ gs, (Guess.numOfCommonLetters a b).isSome) ∧
    (filterCandidates gs).isSome ∧
    (∃ out, run input = PResult.ok out) := by
  obtain ⟨hp, g0, rest, hgs, hlen⟩ := parseGuesses_ok_spec input gs h
  have hsome : ∀ a ∈ gs, ∀ b ∈ gs, (Guess.numOfCommonLetters a b).isSome := by
    intro a ha b hb
    rw [Guess.numOfCommonLetters, commonCount_isSome_iff,
      hlen a ha, hlen b hb]
  have hc : ∀ g ∈ gs.filter (fun g => g.count.isSome),
      ∃ m, g.count = some m := by
    intro g hg
    exact Option.isSome_iff_exists.mp (List.mem_filter.mp hg).2
  have hl : ∀ g ∈ gs.filter (fun g => g.count.isSome),
      ∀ c ∈ gs.filter (fun g => g.count.isNone),
        g.word.length ≤ c.word.length := by
    intro g hg c hcm
    rw [hlen g (List.mem_filter.mp hg).1, hlen c (List.mem_filter.mp hcm).1]
  have hfc : filterCandidates gs
      = some ((gs.filter (fun g => g.count.isNone)).filter
          (fun c => decide
            (SpecConsistent (gs.filter (fun g => g.count.isSome)) c))) :=
    filterConsistent_eq _ _ hc hl
  refine ⟨hsome, by rw [hfc]; rfl,
    ⟨((gs.filter (fun g => g.count.isNone)).filter
        (fun c => decide
          (SpecConsistent (gs.filter (fun g => g.count.isSome)) c))).map
      (fun g => g.word), ?_⟩⟩
  simp only [run, h, hfc]

/-- Witness for C10 at the spec's scenario 3 input (`cat`, `dog 0`). -/
theorem c10_witness :
    parseGuessesFromInput ("cat\ndog 0".toList)
      = PResult.ok [Guess.mk "cat".toList none, Guess.mk "dog".toList (some 0)] ∧
    (filterCandidates [Guess.mk "cat".toList none,
        Guess.mk "dog".toList (some 0)]).isSome :=
  ⟨by decide,
    (c10_filter_total ("cat\ndog 0".toList)
      [Guess.mk "cat".toList none, Guess.mk "dog".toList (some 0)]
      (by decide)).2.1⟩

end Fallhack
